import Mathlib

/-!
Verification of the video-cutting tool's core logic: a shallow embedding
of src/video-cut1.py.  Python floats are modelled as exact rationals;
a file's content is modelled as the list of its lines; the external
ffmpeg collaborator is modelled by the structured invocation plan the
code builds for it.  Raised exceptions are modelled by Option/Except.
-/

/-! Character and digit-string utilities: the regex digit class and
Python int() applied to a digit group. -/

/-- Value of a decimal digit string, as Python int() on a regex digit
group. -/
def digitsVal (ds : List Char) : ℕ :=
  ds.foldl (fun a c => 10 * a + (c.toNat - 48)) 0

/-! Embedding of parse_time (src/video-cut1.py lines 9-14): regex
(\d+):(\d+)(?::(\d+(?:\.\d+)?))? anchored at the start of the string,
trailing garbage tolerated; value int(h)*3600 + int(m)*60 + float(s)
with s defaulting to '0' when the optional third group is absent. -/

/-- Seconds contribution of parse_time: the optional third regex group,
read from what remains after the second group of digits; 0 when the
optional group does not match. -/
def secondsPart (rest : List Char) : ℚ :=
  match rest with
  | ':' :: rest3 =>
    let si := rest3.takeWhile Char.isDigit
    let rest4 := rest3.dropWhile Char.isDigit
    if si.isEmpty then 0 else
    match rest4 with
    | '.' :: rest5 =>
      let sf := rest5.takeWhile Char.isDigit
      if sf.isEmpty then (digitsVal si : ℚ)
      else (digitsVal si : ℚ) + (digitsVal sf : ℚ) / ((10 : ℚ) ^ sf.length)
    | _ => (digitsVal si : ℚ)
  | _ => 0

/-- Embedding of parse_time; none models the raised ValueError. -/
def parse_time (s : String) : Option ℚ :=
  let cs := s.data
  let hs := cs.takeWhile Char.isDigit
  let rest := cs.dropWhile Char.isDigit
  if hs.isEmpty then none else
  match rest with
  | ':' :: rest1 =>
    let ms := rest1.takeWhile Char.isDigit
    let rest2 := rest1.dropWhile Char.isDigit
    if ms.isEmpty then none else
    some ((digitsVal hs : ℚ) * 3600 + (digitsVal ms : ℚ) * 60 + secondsPart rest2)
  | _ => none

/-! Embedding of parse_time_ranges_file (lines 16-32).  The file is
modelled as its list of raw lines. -/

/-- Whitespace stripped by Python str.strip with no argument. -/
def isPySpace (c : Char) : Bool :=
  c = ' ' || c = '\t' || c = '\n' || c = '\r' || c = '\x0b' || c = '\x0c'

/-- Python line.strip(). -/
def pyStrip (s : String) : String :=
  String.mk (((s.data.dropWhile isPySpace).reverse.dropWhile isPySpace).reverse)

/-- Line 18: keep the stripped form of every line that is non-blank
after stripping. -/
def stripLines (rawLines : List String) : List String :=
  (rawLines.map pyStrip).filter (fun l => !l.isEmpty)

/-- The distinct ValueError messages parse_time_ranges_file can raise:
a line not matching ([\d:.]+)-([\d:.]+) (line 23), a time token rejected
by parse_time (line 12, raised while handling line 24), start >= end
(line 26), and the ordering/overlap failure (line 31). -/
inductive RangeErr where
  | invalidRange (line : String)
  | invalidTime (tok : String)
  | startGeEnd (line : String)
  | notSorted
deriving DecidableEq

/-- Character class [\d:.] of the range-line regex. -/
def isTimeChar (c : Char) : Bool := c.isDigit || c = ':' || c = '.'

/-- Lines 21-24: match ([\d:.]+)-([\d:.]+) against the line (anchored at
the start, trailing garbage tolerated) and parse both captured tokens
with parse_time. -/
def parse_pair_detail (line : String) : Except RangeErr (ℚ × ℚ) :=
  let cs := line.data
  let g1 := cs.takeWhile isTimeChar
  let rest := cs.dropWhile isTimeChar
  if g1.isEmpty then .error (.invalidRange line) else
  match rest with
  | '-' :: rest2 =>
    let g2 := rest2.takeWhile isTimeChar
    if g2.isEmpty then .error (.invalidRange line) else
    match parse_time (String.mk g1) with
    | none => .error (.invalidTime (String.mk g1))
    | some st =>
      match parse_time (String.mk g2) with
      | none => .error (.invalidTime (String.mk g2))
      | some en => .ok (st, en)
  | _ => .error (.invalidRange line)

/-- Lines 21-27: one iteration of the parsing loop, including the
start >= end check of lines 25-26. -/
def parse_range_line (line : String) : Except RangeErr (ℚ × ℚ) :=
  match parse_pair_detail line with
  | .error e => .error e
  | .ok (st, en) => if st ≥ en then .error (.startGeEnd line) else .ok (st, en)

/-- Lines 19-27: the parsing loop over the stripped lines; the first
failing line aborts the whole parse. -/
def parse_lines : List String → Except RangeErr (List (ℚ × ℚ))
  | [] => .ok []
  | l :: ls =>
    match parse_range_line l with
    | .error e => .error e
    | .ok p =>
      match parse_lines ls with
      | .error e => .error e
      | .ok ps => .ok (p :: ps)

/-- Lines 29-31: the sortedness/overlap scan, true when every adjacent
pair satisfies previous end <= next start. -/
def ordered_ok : List (ℚ × ℚ) → Bool
  | [] => true
  | [_] => true
  | a :: b :: t => decide (a.2 ≤ b.1) && ordered_ok (b :: t)

/-- Embedding of parse_time_ranges_file over the file's raw lines. -/
def parse_time_ranges (rawLines : List String) : Except RangeErr (List (ℚ × ℚ)) :=
  match parse_lines (stripLines rawLines) with
  | .error e => .error e
  | .ok rs => if ordered_ok rs then .ok rs else .error .notSorted

/-! Embedding of get_min_duration (lines 34-35) and the fade gate in
main (lines 150-153). -/

/-- Embedding of get_min_duration: Python min over a generator is a
left fold of min; none models the ValueError min raises on an empty
sequence. -/
def get_min_duration : List (ℚ × ℚ) → Option ℚ
  | [] => none
  | r :: rs => some ((rs.map (fun p => p.2 - p.1)).foldl min (r.2 - r.1))

/-- Lines 150-153 of main: some true means the overlap > min_dur test
fires (exit 1 with FadeTooLong message); none means get_min_duration
itself raised. -/
def fade_rejects (ranges : List (ℚ × ℚ)) (overlap : ℚ) : Option Bool :=
  (get_min_duration ranges).map (fun m => decide (overlap > m))

/-- Outcomes of the validation phase of main (lines 144-153), before
any media work. -/
inductive MainErr where
  | rangesFileError (e : RangeErr)
  | uncaughtValueError
  | fadeTooLong
deriving DecidableEq

/-- Validation phase of main (lines 144-153): parse the ranges file
(exceptions caught, exit 1); call get_min_duration outside any handler
(an exception there is uncaught); compare overlap against min_dur. -/
def main_check (rawLines : List String) (overlap : ℚ) : Except MainErr (List (ℚ × ℚ)) :=
  match parse_time_ranges rawLines with
  | .error e => .error (.rangesFileError e)
  | .ok ranges =>
    match get_min_duration ranges with
    | none => .error .uncaughtValueError
    | some minDur => if overlap > minDur then .error .fadeTooLong else .ok ranges

/-! Embedding of cut_and_fade_segments (lines 37-65) at the level of the
per-segment ffmpeg invocation it requests. -/

/-- One segment's ffmpeg request: either a re-encode with fade-in at
local time 0 and fade-out at duration - fadeDur (lines 44-55), or a
stream copy (lines 56-63). -/
inductive SegSpec where
  | fadeEncode (sourceStart duration fadeDur : ℚ)
  | streamCopy (sourceStart duration : ℚ)
deriving DecidableEq

/-- Embedding of cut_and_fade_segments: the fade branch is taken only
when overlap_time > 0. -/
def cut_and_fade_segments (ranges : List (ℚ × ℚ)) (overlap : ℚ) : List SegSpec :=
  ranges.map (fun r =>
    if overlap > 0 then SegSpec.fadeEncode r.1 (r.2 - r.1) overlap
    else SegSpec.streamCopy r.1 (r.2 - r.1))

/-! Embedding of adjust_subtitle (lines 82-124).  A source subtitle cue
is modelled by its two timestamps (in seconds) and its block of text
lines; an output cue additionally records, as the ghost field src, the
source cue whose text block the code copied verbatim (lines 116-121). -/

/-- Source subtitle cue: start/stop times in seconds plus text lines. -/
structure Cue where
  start : ℚ
  stop : ℚ
  text : List String
deriving DecidableEq

/-- Output cue of adjust_subtitle: the retimed start/stop written on the
timestamp line (lines 112-115), with the originating source cue kept as
ghost provenance (its text is what lines 117-120 copy). -/
structure OutCue where
  src : Cue
  start : ℚ
  stop : ℚ
deriving DecidableEq

/-- Duration of a time range. -/
def rangeDur (r : ℚ × ℚ) : ℚ := r.2 - r.1

/-- Line 99: seg_offset = sum(r[1]-r[0] for r in ranges[:seg_idx]). -/
def seg_offset (ranges : List (ℚ × ℚ)) (i : ℕ) : ℚ :=
  ((ranges.take i).map rangeDur).sum

/-- Line 110: the containment test st >= start and et <= end. -/
def containsB (r : ℚ × ℚ) (c : Cue) : Bool :=
  decide (r.1 ≤ c.start) && decide (c.stop ≤ r.2)

/-- Lines 112-113: shift a contained cue by -start + seg_offset. -/
def shiftCue (r : ℚ × ℚ) (off : ℚ) (c : Cue) : OutCue :=
  ⟨c, c.start - r.1 + off, c.stop - r.1 + off⟩

/-- Lines 98-122: outer loop over ranges (i is the current seg_idx),
inner loop over the cues of the file, emitting every cue contained in
the current range. -/
def adjust_from (cues : List Cue) (ranges : List (ℚ × ℚ)) : ℕ → List (ℚ × ℚ) → List OutCue
  | _, [] => []
  | i, r :: rest =>
    (cues.filter (containsB r)).map (shiftCue r (seg_offset ranges i))
      ++ adjust_from cues ranges (i + 1) rest

/-- Embedding of adjust_subtitle: the ordered list of emitted cues. -/
def adjust_subtitle (cues : List Cue) (ranges : List (ℚ × ℚ)) : List OutCue :=
  adjust_from cues ranges 0 ranges

/-- Lines 97, 114, 122: the sequential numbering written before each
emitted cue starts at 1 and follows emission order. -/
def adjust_numbered (cues : List Cue) (ranges : List (ℚ × ℚ)) : List (ℕ × OutCue) :=
  (adjust_subtitle cues ranges).enum.map (fun p => (p.1 + 1, p.2))

/-! Embedding of srt_time_to_sec and sec_to_srt_time (lines 87-94),
including Python's floor division, trunc-toward-zero int(), % on
rationals, round-half-to-even, and f-string zero padding. -/

/-- Python int(x): truncation toward zero. -/
def pyTrunc (q : ℚ) : ℤ := if 0 ≤ q then ⌊q⌋ else ⌈q⌉

/-- Python a % b for b > 0 (sign of the result follows b). -/
def pyMod (a b : ℚ) : ℚ := a - b * ⌊a / b⌋

/-- Python round(x) with no digits argument: nearest integer, ties to
even. -/
def roundHalfEven (q : ℚ) : ℤ :=
  if q - ⌊q⌋ < 1/2 then ⌊q⌋
  else if 1/2 < q - ⌊q⌋ then ⌊q⌋ + 1
  else if 2 ∣ ⌊q⌋ then ⌊q⌋ else ⌊q⌋ + 1

/-- Decimal digits of n, most significant first (empty for 0); the
first argument is recursion fuel, sufficient whenever n <= fuel. -/
def decDigits : ℕ → ℕ → List Char
  | 0, _ => []
  | fuel + 1, n => if n = 0 then [] else decDigits fuel (n / 10) ++ [Char.ofNat (48 + n % 10)]

/-- Python str() of a natural number. -/
def decimalStr (n : ℕ) : String :=
  if n = 0 then "0" else String.mk (decDigits (n + 1) n)

/-- Zero-pad a string on the left to width w (no-op when already that
wide). -/
def padZeros (w : ℕ) (s : String) : String :=
  if s.length < w then String.mk (List.replicate (w - s.length) '0') ++ s else s

/-- Python f-string {n:0w} on an integer: minimum width w, zero filled,
the sign (if any) before the fill. -/
def intPad (w : ℕ) (n : ℤ) : String :=
  if n < 0 then "-" ++ padZeros (w - 1) (decimalStr (-n).toNat)
  else padZeros w (decimalStr n.toNat)

/-- Lines 87-88: srt_time_to_sec on the four captured digit groups. -/
def srt_time_to_sec (h m s ms : ℕ) : ℚ :=
  (h : ℚ) * 3600 + (m : ℚ) * 60 + (s : ℚ) + (ms : ℚ) / 1000

/-- Line 90: h = int(sec // 3600). -/
def srt_h (sec : ℚ) : ℤ := ⌊sec / 3600⌋

/-- Line 91: m = int((sec % 3600) // 60). -/
def srt_m (sec : ℚ) : ℤ := ⌊pyMod sec 3600 / 60⌋

/-- Line 92: s = int(sec % 60). -/
def srt_s (sec : ℚ) : ℤ := ⌊pyMod sec 60⌋

/-- Line 93: ms = int(round((sec - int(sec)) * 1000)). -/
def srt_ms (sec : ℚ) : ℤ := roundHalfEven ((sec - pyTrunc sec) * 1000)

/-- Line 94: the formatted timestamp string. -/
def sec_to_srt_time (sec : ℚ) : String :=
  intPad 2 (srt_h sec) ++ ":" ++ intPad 2 (srt_m sec) ++ ":" ++ intPad 2 (srt_s sec)
    ++ "," ++ intPad 3 (srt_ms sec)

/-- Rendering of four in-range SRT timestamp fields in the canonical
HH:MM:SS,mmm shape; a well-formed SRT timestamp string is exactly such a
rendering. -/
def srtRender (h m s ms : ℕ) : String :=
  padZeros 2 (decimalStr h) ++ ":" ++ padZeros 2 (decimalStr m) ++ ":" ++ padZeros 2 (decimalStr s)
    ++ "," ++ padZeros 3 (decimalStr ms)

/-- Ranges successfully extracted from a list of already-stripped lines,
ignoring the start < end check: the value the parsing loop would build
from the pattern-and-time stage alone. -/
def pairsOf (ls : List String) : List (ℚ × ℚ) :=
  ls.filterMap (fun l => (parse_pair_detail l).toOption)

/-! Helper lemmas about greedy character spans (the regex + groups). -/

/-- Splitting a greedy span at the first failing character. -/
theorem span_stop {p : Char → Bool} :
    ∀ (l : List Char) (c : Char) (rest : List Char),
      (∀ x ∈ l, p x = true) → p c = false →
      (l ++ c :: rest).takeWhile p = l ∧ (l ++ c :: rest).dropWhile p = c :: rest := by
  intro l
  induction l with
  | nil =>
    intro c rest _ hc
    simp [List.takeWhile_cons, List.dropWhile_cons, hc]
  | cons a t ih =>
    intro c rest hl hc
    have ha : p a = true := hl a (by simp)
    have ht : ∀ x ∈ t, p x = true := fun x hx => hl x (by simp [hx])
    obtain ⟨h1, h2⟩ := ih c rest ht hc
    simp [List.takeWhile_cons, List.dropWhile_cons, ha, h1, h2]

/-- A span over a list all of whose characters pass consumes it whole. -/
theorem span_all {p : Char → Bool} :
    ∀ (l : List Char), (∀ x ∈ l, p x = true) →
      l.takeWhile p = l ∧ l.dropWhile p = [] := by
  intro l
  induction l with
  | nil => simp
  | cons a t ih =>
    intro hl
    have ha : p a = true := hl a (by simp)
    have ht : ∀ x ∈ t, p x = true := fun x hx => hl x (by simp [hx])
    obtain ⟨h1, h2⟩ := ih ht
    simp [List.takeWhile_cons, List.dropWhile_cons, ha, h1, h2]

/-- C1 (amended): the code reads a two-part time string A:B as
hours:minutes, not minutes:seconds — for all-digit groups A and B the
parser returns A*3600 + B*60, with the seconds component 0. -/
theorem parse_time_two_part (s1 s2 : List Char) (h1 : s1 ≠ []) (h2 : s2 ≠ [])
    (d1 : ∀ c ∈ s1, c.isDigit = true) (d2 : ∀ c ∈ s2, c.isDigit = true) :
    parse_time (String.mk (s1 ++ ':' :: s2)) =
      some ((digitsVal s1 : ℚ) * 3600 + (digitsVal s2 : ℚ) * 60) := by
  have hcolon : (':' : Char).isDigit = false := by decide
  obtain ⟨ht, hd⟩ := span_stop s1 ':' s2 d1 hcolon
  obtain ⟨ht2, hd2⟩ := span_all s2 d2
  have e1 : s1.isEmpty = false := by
    cases s1 with
    | nil => exact absurd rfl h1
    | cons a t => rfl
  have e2 : s2.isEmpty = false := by
    cases s2 with
    | nil => exact absurd rfl h2
    | cons a t => rfl
  show (let cs := (String.mk (s1 ++ ':' :: s2)).data
        let hs := cs.takeWhile Char.isDigit
        let rest := cs.dropWhile Char.isDigit
        if hs.isEmpty then none else
        match rest with
        | ':' :: rest1 =>
          let ms := rest1.takeWhile Char.isDigit
          let rest2 := rest1.dropWhile Char.isDigit
          if ms.isEmpty then none else
          some ((digitsVal hs : ℚ) * 3600 + (digitsVal ms : ℚ) * 60 + secondsPart rest2)
        | _ => none) = _
  simp only [String.data]
  rw [ht, hd]
  simp only [e1, ht2, hd2, e2, Bool.false_eq_true, if_false]
  show some ((digitsVal s1 : ℚ) * 3600 + (digitsVal s2 : ℚ) * 60 + secondsPart []) = _
  show some ((digitsVal s1 : ℚ) * 3600 + (digitsVal s2 : ℚ) * 60 + 0) = _
  rw [add_zero]

/-- C1 witness: the two-part theorem applied to "0:05" (digit groups
"0" and "05") evaluates to 300 seconds (five minutes). -/
theorem parse_time_two_part_witness : parse_time "0:05" = some 300 := by
  have h := parse_time_two_part ['0'] ['0', '5'] (by decide) (by decide)
    (by decide) (by decide)
  have hs : "0:05" = String.mk (['0'] ++ ':' :: ['0', '5']) := rfl
  rw [hs, h]
  have e0 : '0'.toNat - 48 = 0 := by decide
  have e5 : '5'.toNat - 48 = 5 := by decide
  norm_num [digitsVal, e0, e5]

/-- C1 counterexample: the claim says parsing "0:05" yields 5.0 (the
two-part form read as minutes:seconds); the code returns 300.0 because
it reads the two parts as hours:minutes. -/
theorem parse_time_two_part_cex : parse_time "0:05" = some 300 ∧ (300 : ℚ) ≠ 5 := by
  constructor
  · simp [parse_time, secondsPart, digitsVal]
    norm_num
  · norm_num

/-! Helper lemmas for the range-file validator. -/

/-- An Except value whose isOk test passes is an ok. -/
theorem except_ok_of_isOk {ε α : Type} {e : Except ε α} (h : e.isOk = true) :
    ∃ p, e = .ok p := by
  cases e with
  | error _ => simp [Except.isOk, Except.toBool] at h
  | ok a => exact ⟨a, rfl⟩

/-- Unfolding pairsOf over a line whose pattern-and-time stage parses. -/
theorem pairsOf_cons_ok {l : String} {p : ℚ × ℚ} (t : List String)
    (hp : parse_pair_detail l = .ok p) : pairsOf (l :: t) = p :: pairsOf t := by
  unfold pairsOf
  rw [List.filterMap_cons, hp]
  rfl

/-- Inversion for one loop iteration: it returns a pair exactly when the
pattern-and-time stage produced it and start < end held. -/
theorem parse_range_line_ok_iff {l : String} {p : ℚ × ℚ} :
    parse_range_line l = .ok p ↔ parse_pair_detail l = .ok p ∧ p.1 < p.2 := by
  unfold parse_range_line
  cases hpd : parse_pair_detail l with
  | error e => simp
  | ok q =>
    obtain ⟨qs, qe⟩ := q
    show (if qs ≥ qe then (Except.error (RangeErr.startGeEnd l) : Except RangeErr (ℚ × ℚ))
          else Except.ok (qs, qe)) = Except.ok p ↔
        Except.ok (qs, qe) = Except.ok p ∧ p.1 < p.2
    by_cases hge : qs ≥ qe
    · rw [if_pos hge]
      constructor
      · intro h; exact absurd h (by simp)
      · rintro ⟨hq, hlt⟩
        injection hq with hq
        rw [← hq] at hlt
        exact absurd hlt (not_lt.mpr hge)
    · rw [if_neg hge]
      constructor
      · intro h
        injection h with h
        exact ⟨by rw [h], by rw [← h]; exact lt_of_not_ge hge⟩
      · rintro ⟨hq, _⟩
        injection hq with hq
        rw [hq]

/-- When every line parses and every parsed pair is increasing, the loop
returns exactly the parsed pairs. -/
theorem parse_lines_eq_ok :
    ∀ ls : List String,
      (∀ l ∈ ls, (parse_pair_detail l).isOk = true) →
      (∀ p ∈ pairsOf ls, p.1 < p.2) →
      parse_lines ls = .ok (pairsOf ls) := by
  intro ls
  induction ls with
  | nil => intro _ _; rfl
  | cons l t ih =>
    intro hok hlt
    obtain ⟨p, hp⟩ := except_ok_of_isOk (hok l (by simp))
    have hc := pairsOf_cons_ok t hp
    have hplt : p.1 < p.2 := hlt p (by rw [hc]; simp)
    have hline : parse_range_line l = .ok p := parse_range_line_ok_iff.mpr ⟨hp, hplt⟩
    have htail : parse_lines t = .ok (pairsOf t) :=
      ih (fun x hx => hok x (by simp [hx])) (fun q hq => hlt q (by rw [hc]; simp [hq]))
    unfold parse_lines
    rw [hline, htail, hc]

/-- Conversely, a successful loop returns the parsed pairs and each was
increasing. -/
theorem parse_lines_ok_inv :
    ∀ (ls : List String) (rs : List (ℚ × ℚ)),
      parse_lines ls = .ok rs → rs = pairsOf ls ∧ ∀ p ∈ rs, p.1 < p.2 := by
  intro ls
  induction ls with
  | nil =>
    intro rs h
    injection h with h
    exact ⟨h.symm, by rw [← h]; simp⟩
  | cons l t ih =>
    intro rs h
    unfold parse_lines at h
    cases hline : parse_range_line l with
    | error e => rw [hline] at h; exact absurd h (by simp)
    | ok p =>
      rw [hline] at h
      cases htail : parse_lines t with
      | error e => rw [htail] at h; exact absurd h (by simp)
      | ok ps =>
        rw [htail] at h
        injection h with h
        obtain ⟨hpd, hplt⟩ := parse_range_line_ok_iff.mp hline
        obtain ⟨hps, hall⟩ := ih ps htail
        subst h
        refine ⟨by rw [pairsOf_cons_ok t hpd, hps], ?_⟩
        intro q hq
        rcases List.mem_cons.mp hq with h1 | h1
        · rw [h1]; exact hplt
        · exact hall q h1

/-- When every line parses but some pair has start >= end, the loop
aborts with the start-ge-end error naming an offending line. -/
theorem parse_lines_bad_line :
    ∀ ls : List String,
      (∀ l ∈ ls, (parse_pair_detail l).isOk = true) →
      (∃ p ∈ pairsOf ls, p.2 ≤ p.1) →
      ∃ l p, parse_lines ls = .error (.startGeEnd l) ∧ l ∈ ls ∧
        parse_pair_detail l = .ok p ∧ p.2 ≤ p.1 := by
  intro ls
  induction ls with
  | nil => rintro _ ⟨p, hp, _⟩; exact absurd hp (by simp [pairsOf])
  | cons l t ih =>
    rintro hok ⟨p, hp, hple⟩
    obtain ⟨p0, hp0⟩ := except_ok_of_isOk (hok l (by simp))
    have hc := pairsOf_cons_ok t hp0
    by_cases hge : p0.1 ≥ p0.2
    · refine ⟨l, p0, ?_, by simp, hp0, hge⟩
      have hline : parse_range_line l = .error (.startGeEnd l) := by
        unfold parse_range_line
        rw [hp0]
        exact if_pos hge
      unfold parse_lines
      rw [hline]
    · have hlt : p0.1 < p0.2 := lt_of_not_ge hge
      have hline : parse_range_line l = .ok p0 := parse_range_line_ok_iff.mpr ⟨hp0, hlt⟩
      have hbad : ∃ q ∈ pairsOf t, q.2 ≤ q.1 := by
        rw [hc] at hp
        rcases List.mem_cons.mp hp with h1 | h1
        · rw [h1] at hple
          exact absurd hple (not_le.mpr hlt)
        · exact ⟨p, h1, hple⟩
      obtain ⟨l', p', herr, hmem, hpd', hle'⟩ := ih (fun x hx => hok x (by simp [hx])) hbad
      refine ⟨l', p', ?_, by simp [hmem], hpd', hle'⟩
      unfold parse_lines
      rw [hline, herr]

/-- The sortedness scan succeeds exactly when adjacent ranges satisfy
previous end <= next start. -/
theorem ordered_ok_iff :
    ∀ rs : List (ℚ × ℚ), ordered_ok rs = true ↔ rs.Chain' (fun a b => a.2 ≤ b.1) := by
  intro rs
  induction rs with
  | nil => simp [ordered_ok]
  | cons a t ih =>
    cases t with
    | nil => simp [ordered_ok]
    | cons b t2 =>
      rw [List.chain'_cons, ← ih]
      rw [show ordered_ok (a :: b :: t2) = (decide (a.2 ≤ b.1) && ordered_ok (b :: t2)) from rfl]
      rw [Bool.and_eq_true, decide_eq_true_iff]

/-- Unfolding parse_time_ranges over a successful loop. -/
theorem parse_time_ranges_of_ok {rawLines : List String} {rs : List (ℚ × ℚ)}
    (h : parse_lines (stripLines rawLines) = .ok rs) :
    parse_time_ranges rawLines = if ordered_ok rs then .ok rs else .error .notSorted := by
  unfold parse_time_ranges
  rw [h]

/-- Unfolding parse_time_ranges over a failing loop. -/
theorem parse_time_ranges_of_err {rawLines : List String} {e : RangeErr}
    (h : parse_lines (stripLines rawLines) = .error e) :
    parse_time_ranges rawLines = .error e := by
  unfold parse_time_ranges
  rw [h]

/-- C5 (confirmed): over well-formed range lines (every stripped line
passes the pattern-and-time stage), the validator succeeds and returns
the parsed ranges iff every pair has start < end and adjacent pairs
satisfy end <= next start; a start >= end pair aborts with an error
naming the offending line; an adjacency violation (with all pairs
increasing) aborts with the ordering error.  Equal boundaries are
accepted since the adjacency condition is non-strict. -/
theorem parse_time_ranges_spec (rawLines : List String)
    (hok : ∀ l ∈ stripLines rawLines, (parse_pair_detail l).isOk = true) :
    (parse_time_ranges rawLines = .ok (pairsOf (stripLines rawLines)) ↔
      (∀ p ∈ pairsOf (stripLines rawLines), p.1 < p.2) ∧
      (pairsOf (stripLines rawLines)).Chain' (fun a b => a.2 ≤ b.1)) ∧
    ((∃ p ∈ pairsOf (stripLines rawLines), p.2 ≤ p.1) →
      ∃ l p, parse_time_ranges rawLines = .error (.startGeEnd l) ∧
        l ∈ stripLines rawLines ∧ parse_pair_detail l = .ok p ∧ p.2 ≤ p.1) ∧
    (((∀ p ∈ pairsOf (stripLines rawLines), p.1 < p.2) ∧
      ¬ (pairsOf (stripLines rawLines)).Chain' (fun a b => a.2 ≤ b.1)) →
      parse_time_ranges rawLines = .error .notSorted) := by
  refine ⟨⟨?_, ?_⟩, ?_, ?_⟩
  · intro h
    cases hpl : parse_lines (stripLines rawLines) with
    | error e =>
      rw [parse_time_ranges_of_err hpl] at h
      exact absurd h (by simp)
    | ok rs =>
      rw [parse_time_ranges_of_ok hpl] at h
      obtain ⟨hrs, hall⟩ := parse_lines_ok_inv _ _ hpl
      by_cases hord : ordered_ok rs = true
      · rw [← hrs]
        exact ⟨hall, (ordered_ok_iff rs).mp hord⟩
      · rw [if_neg hord] at h
        exact absurd h (by simp)
  · rintro ⟨hlt, hch⟩
    have hpl := parse_lines_eq_ok _ hok hlt
    rw [parse_time_ranges_of_ok hpl, if_pos ((ordered_ok_iff _).mpr hch)]
  · intro hbad
    obtain ⟨l, p, herr, hmem, hpd, hle⟩ := parse_lines_bad_line _ hok hbad
    exact ⟨l, p, parse_time_ranges_of_err herr, hmem, hpd, hle⟩
  · rintro ⟨hlt, hnch⟩
    have hpl := parse_lines_eq_ok _ hok hlt
    rw [parse_time_ranges_of_ok hpl,
      if_neg (fun hord => hnch ((ordered_ok_iff _).mp hord))]

/-- C5 witness: the validator on the file "0:00-0:10" / "0:20-0:25"
(two-part times read as hours:minutes) accepts and returns the two
ranges. -/
theorem parse_time_ranges_spec_witness :
    parse_time_ranges ["0:00-0:10", "0:20-0:25"] = .ok [(0, 600), (1200, 1500)] := by
  have hL : stripLines ["0:00-0:10", "0:20-0:25"] = ["0:00-0:10", "0:20-0:25"] := by decide
  have hp1 : parse_pair_detail "0:00-0:10" = .ok (0, 600) := by
    simp [parse_pair_detail, parse_time, secondsPart, digitsVal, isTimeChar]
    norm_num
  have hp2 : parse_pair_detail "0:20-0:25" = .ok (1200, 1500) := by
    simp [parse_pair_detail, parse_time, secondsPart, digitsVal, isTimeChar]
    norm_num
  have hpairs : pairsOf (stripLines ["0:00-0:10", "0:20-0:25"]) = [(0, 600), (1200, 1500)] := by
    rw [hL, pairsOf_cons_ok _ hp1, pairsOf_cons_ok _ hp2]
    rfl
  have hok : ∀ l ∈ stripLines ["0:00-0:10", "0:20-0:25"], (parse_pair_detail l).isOk = true := by
    rw [hL]
    intro l hl
    rcases List.mem_cons.mp hl with h | h
    · rw [h, hp1]; rfl
    · rw [List.mem_singleton.mp h, hp2]; rfl
  have h := (parse_time_ranges_spec ["0:00-0:10", "0:20-0:25"] hok).1.mpr ?_
  · rw [hpairs] at h
    exact h
  · rw [hpairs]
    refine ⟨?_, ?_⟩
    · intro p hp
      rcases List.mem_cons.mp hp with h1 | h1
      · rw [h1]; norm_num
      · rw [List.mem_singleton.mp h1]; norm_num
    · rw [List.chain'_cons]
      exact ⟨by norm_num, List.chain'_singleton _⟩

/-- C9 (confirmed): a range file with no non-blank line parses to the
empty range list, get_min_duration has no value on an empty list (the
Python min raises ValueError), and main hits that exception outside any
handler — there is no defined error path for an empty range file. -/
theorem empty_range_file_uncaught (rawLines : List String) (overlap : ℚ)
    (hb : ∀ l ∈ rawLines, pyStrip l = "") :
    parse_time_ranges rawLines = .ok [] ∧
    get_min_duration [] = none ∧
    main_check rawLines overlap = .error .uncaughtValueError := by
  have hs : stripLines rawLines = [] := by
    unfold stripLines
    rw [List.filter_eq_nil_iff]
    intro a ha
    obtain ⟨l, hl, rfl⟩ := List.mem_map.mp ha
    rw [hb l hl]
    decide
  have h1 : parse_time_ranges rawLines = .ok [] := by
    unfold parse_time_ranges
    rw [hs]
    rfl
  refine ⟨h1, rfl, ?_⟩
  unfold main_check
  rw [h1]
  rfl

/-- C9 witness: a file of one empty and one blank line triggers the
uncaught-min path. -/
theorem empty_range_file_uncaught_witness :
    parse_time_ranges ["", "   "] = .ok [] ∧ get_min_duration [] = none ∧
    main_check ["", "   "] 0 = .error .uncaughtValueError :=
  empty_range_file_uncaught ["", "   "] 0 (by decide)

/-! Helper lemmas about the left fold of min (Python min over a
generator). -/

/-- The fold of min never exceeds its seed. -/
theorem foldl_min_le_init : ∀ (l : List ℚ) (a : ℚ), l.foldl min a ≤ a := by
  intro l
  induction l with
  | nil => intro a; exact le_refl a
  | cons b t ih => intro a; exact le_trans (ih (min a b)) (min_le_left a b)

/-- The fold of min never exceeds any list element. -/
theorem foldl_min_le_mem : ∀ (l : List ℚ) (a x : ℚ), x ∈ l → l.foldl min a ≤ x := by
  intro l
  induction l with
  | nil => intro a x hx; exact absurd hx (by simp)
  | cons b t ih =>
    intro a x hx
    rcases List.mem_cons.mp hx with h | h
    · rw [h]
      exact le_trans (foldl_min_le_init t (min a b)) (min_le_right a b)
    · exact ih (min a b) x h

/-- The fold of min is the seed or some list element. -/
theorem foldl_min_attained : ∀ (l : List ℚ) (a : ℚ), l.foldl min a = a ∨ l.foldl min a ∈ l := by
  intro l
  induction l with
  | nil => intro a; exact Or.inl rfl
  | cons b t ih =>
    intro a
    rcases ih (min a b) with h | h
    · rcases min_choice a b with hm | hm
      · exact Or.inl (by rw [List.foldl_cons, h, hm])
      · exact Or.inr (by rw [List.foldl_cons, h, hm]; simp)
    · exact Or.inr (by rw [List.foldl_cons]; simp [h])

/-- Characterisation of get_min_duration on a non-empty range list: its
value is the duration of some range and bounds every duration below. -/
theorem get_min_duration_spec (ranges : List (ℚ × ℚ)) (hne : ranges ≠ []) :
    ∃ m, get_min_duration ranges = some m ∧
      (∃ r ∈ ranges, r.2 - r.1 = m) ∧ ∀ r ∈ ranges, m ≤ r.2 - r.1 := by
  obtain ⟨r0, rs, rfl⟩ := List.exists_cons_of_ne_nil hne
  refine ⟨(rs.map (fun p => p.2 - p.1)).foldl min (r0.2 - r0.1), rfl, ?_, ?_⟩
  · rcases foldl_min_attained (rs.map (fun p => p.2 - p.1)) (r0.2 - r0.1) with h | h
    · exact ⟨r0, by simp, h.symm⟩
    · obtain ⟨r, hr, hq⟩ := List.mem_map.mp h
      exact ⟨r, by simp [hr], hq⟩
  · intro r hr
    rcases List.mem_cons.mp hr with h | h
    · rw [h]
      exact foldl_min_le_init _ _
    · exact foldl_min_le_mem _ _ _ (List.mem_map_of_mem _ h)

/-- C4 (confirmed): on a non-empty validated range list the fade gate
rejects exactly when the fade exceeds the duration of some range, i.e.
when it exceeds the minimum duration; when the fade is at most every
duration (in particular at the boundary fade = min duration) it is
accepted.  The gate runs in main before any ffmpeg invocation. -/
theorem fade_gate_spec (ranges : List (ℚ × ℚ)) (f : ℚ) (hne : ranges ≠ []) :
    (fade_rejects ranges f = some true ↔ ∃ r ∈ ranges, r.2 - r.1 < f) ∧
    ((∀ r ∈ ranges, f ≤ r.2 - r.1) → fade_rejects ranges f = some false) := by
  obtain ⟨m, hm, ⟨ra, hra, hda⟩, hall⟩ := get_min_duration_spec ranges hne
  have hfr : fade_rejects ranges f = some (decide (f > m)) := by
    unfold fade_rejects
    rw [hm]
    rfl
  refine ⟨⟨?_, ?_⟩, ?_⟩
  · intro h
    rw [hfr] at h
    injection h with h
    exact ⟨ra, hra, by rw [hda]; exact of_decide_eq_true h⟩
  · rintro ⟨r, hr, hlt⟩
    rw [hfr]
    have hmf : m < f := lt_of_le_of_lt (hall r hr) hlt
    exact congrArg some (decide_eq_true hmf)
  · intro hle
    rw [hfr]
    have hnf : ¬ (f > m) := not_lt.mpr (by rw [← hda]; exact hle ra hra)
    exact congrArg some (decide_eq_false hnf)

/-- C4 witness: fade 6 over ranges of durations 10 and 5 is rejected;
the boundary fade 5 (equal to the minimum duration) is accepted. -/
theorem fade_gate_spec_witness :
    fade_rejects [((0:ℚ), (10:ℚ)), ((20:ℚ), (25:ℚ))] 6 = some true ∧
    fade_rejects [((0:ℚ), (10:ℚ)), ((20:ℚ), (25:ℚ))] 5 = some false := by
  constructor
  · exact (fade_gate_spec [((0:ℚ), (10:ℚ)), ((20:ℚ), (25:ℚ))] 6 (by simp)).1.mpr
      ⟨(20, 25), by simp, by norm_num⟩
  · refine (fade_gate_spec [((0:ℚ), (10:ℚ)), ((20:ℚ), (25:ℚ))] 5 (by simp)).2 ?_
    intro r hr
    rcases List.mem_cons.mp hr with h | h
    · rw [h]; norm_num
    · rw [List.mem_singleton.mp h]; norm_num

/-- C10 (confirmed): a strictly negative fade value passes the gate on
any non-empty range list of positive durations, and segment cutting
plans a stream copy (no fade filter) for every range, since the fade
branch requires overlap_time > 0. -/
theorem negative_fade_plan (ranges : List (ℚ × ℚ)) (f : ℚ) (hne : ranges ≠ [])
    (hpos : ∀ r ∈ ranges, 0 < r.2 - r.1) (hneg : f < 0) :
    fade_rejects ranges f = some false ∧
    cut_and_fade_segments ranges f =
      ranges.map (fun r => SegSpec.streamCopy r.1 (r.2 - r.1)) := by
  obtain ⟨m, hm, ⟨ra, hra, hda⟩, hall⟩ := get_min_duration_spec ranges hne
  constructor
  · have hfr : fade_rejects ranges f = some (decide (f > m)) := by
      unfold fade_rejects
      rw [hm]
      rfl
    rw [hfr]
    have h0m : 0 < m := by rw [← hda]; exact hpos ra hra
    exact congrArg some (decide_eq_false (not_lt.mpr (le_of_lt (lt_trans hneg h0m))))
  · unfold cut_and_fade_segments
    have hnotpos : ¬ (f > 0) := not_lt.mpr (le_of_lt hneg)
    simp only [if_neg hnotpos]

/-- C10 witness: fade -1 over the single range (0, 10) is accepted and
the plan is one stream copy. -/
theorem negative_fade_plan_witness :
    fade_rejects [((0:ℚ), (10:ℚ))] (-1) = some false ∧
    cut_and_fade_segments [((0:ℚ), (10:ℚ))] (-1) = [SegSpec.streamCopy 0 10] := by
  have h := negative_fade_plan [((0:ℚ), (10:ℚ))] (-1) (by simp)
    (by intro r hr; rw [List.mem_singleton.mp hr]; norm_num) (by norm_num)
  refine ⟨h.1, h.2.trans ?_⟩
  norm_num

/-! Helper lemmas for the subtitle retimer. -/

/-- Membership characterisation of the retimer loop: an output cue comes
from a cue of the file contained in the range at some position of the
remaining suffix, shifted by that position's offset. -/
theorem adjust_from_mem (cues : List Cue) (ranges : List (ℚ × ℚ)) :
    ∀ (susp : List (ℚ × ℚ)) (i : ℕ) (o : OutCue),
      o ∈ adjust_from cues ranges i susp ↔
        ∃ j, ∃ hj : j < susp.length, ∃ c, c ∈ cues ∧
          containsB (susp.get ⟨j, hj⟩) c = true ∧
          o = shiftCue (susp.get ⟨j, hj⟩) (seg_offset ranges (i + j)) c := by
  intro susp
  induction susp with
  | nil => intro i o; simp [adjust_from]
  | cons r rest ih =>
    intro i o
    rw [show adjust_from cues ranges i (r :: rest) =
        (cues.filter (containsB r)).map (shiftCue r (seg_offset ranges i))
          ++ adjust_from cues ranges (i + 1) rest from rfl]
    rw [List.mem_append]
    constructor
    · rintro (h | h)
      · obtain ⟨c, hc, rfl⟩ := List.mem_map.mp h
        obtain ⟨hc1, hc2⟩ := List.mem_filter.mp hc
        exact ⟨0, by simp, c, hc1, by simpa using hc2, by simp⟩
      · obtain ⟨j, hj, c, hc, hcont, heq⟩ := (ih (i + 1) o).mp h
        refine ⟨j + 1, by simpa using hj, c, hc, by simpa using hcont, ?_⟩
        rw [heq]
        have hidx : i + 1 + j = i + (j + 1) := by omega
        rw [hidx]
        rfl
    · rintro ⟨j, hj, c, hc, hcont, heq⟩
      cases j with
      | zero =>
        left
        refine List.mem_map.mpr ⟨c, List.mem_filter.mpr ⟨hc, by simpa using hcont⟩, ?_⟩
        rw [heq]
        rfl
      | succ j' =>
        right
        refine (ih (i + 1) o).mpr ⟨j', by simpa using hj, c, hc, by simpa using hcont, ?_⟩
        rw [heq]
        have hidx : i + 1 + j' = i + (j' + 1) := by omega
        rw [hidx]
        rfl

/-- Membership characterisation of adjust_subtitle. -/
theorem adjust_subtitle_mem (cues : List Cue) (ranges : List (ℚ × ℚ)) (o : OutCue) :
    o ∈ adjust_subtitle cues ranges ↔
      ∃ i, ∃ hi : i < ranges.length, ∃ c, c ∈ cues ∧
        containsB (ranges.get ⟨i, hi⟩) c = true ∧
        o = shiftCue (ranges.get ⟨i, hi⟩) (seg_offset ranges i) c := by
  unfold adjust_subtitle
  rw [adjust_from_mem]
  simp only [Nat.zero_add]

/-- C2 (confirmed): a source cue contributes to the output iff some
range fully contains it (range start <= cue start and cue end <= range
end); cues partially overlapping a boundary or outside all ranges are
dropped entirely, and every emitted cue keeps its source duration — the
retimer never trims. -/
theorem adjust_subtitle_containment (cues : List Cue) (ranges : List (ℚ × ℚ))
    (c : Cue) (hc : c ∈ cues) :
    ((∃ o ∈ adjust_subtitle cues ranges, o.src = c) ↔
      ∃ r ∈ ranges, r.1 ≤ c.start ∧ c.stop ≤ r.2) ∧
    (∀ o ∈ adjust_subtitle cues ranges, o.stop - o.start = o.src.stop - o.src.start) := by
  constructor
  · constructor
    · rintro ⟨o, ho, hsrc⟩
      obtain ⟨i, hi, c', hc', hcont, rfl⟩ := (adjust_subtitle_mem cues ranges o).mp ho
      have hcc : c' = c := hsrc
      rw [hcc] at hcont
      rw [containsB, Bool.and_eq_true, decide_eq_true_eq, decide_eq_true_eq] at hcont
      exact ⟨ranges.get ⟨i, hi⟩, ranges.get_mem _ _, hcont⟩
    · rintro ⟨r, hr, h1, h2⟩
      obtain ⟨n, hget⟩ := List.mem_iff_get.mp hr
      refine ⟨shiftCue r (seg_offset ranges n.1) c, ?_, rfl⟩
      rw [adjust_subtitle_mem]
      refine ⟨n.1, n.2, c, hc, ?_, ?_⟩
      · rw [show ranges.get ⟨n.1, n.2⟩ = r from hget]
        rw [containsB, Bool.and_eq_true, decide_eq_true_eq, decide_eq_true_eq]
        exact ⟨h1, h2⟩
      · rw [show ranges.get ⟨n.1, n.2⟩ = r from hget]
  · intro o ho
    obtain ⟨i, hi, c', hc', hcont, rfl⟩ := (adjust_subtitle_mem cues ranges o).mp ho
    show c'.stop - (ranges.get ⟨i, hi⟩).1 + seg_offset ranges i
        - (c'.start - (ranges.get ⟨i, hi⟩).1 + seg_offset ranges i) = c'.stop - c'.start
    ring

/-- C2 witness: with ranges (10,20),(30,40), the cue with span (15,18)
is fully contained in the first range and appears in the output. -/
theorem adjust_subtitle_containment_witness :
    ∃ o ∈ adjust_subtitle [⟨15, 18, ["a"]⟩] [((10:ℚ), (20:ℚ)), ((30:ℚ), (40:ℚ))],
      o.src = (⟨15, 18, ["a"]⟩ : Cue) :=
  (adjust_subtitle_containment [⟨15, 18, ["a"]⟩] [((10:ℚ), (20:ℚ)), ((30:ℚ), (40:ℚ))]
      ⟨15, 18, ["a"]⟩ (by simp)).1.mpr
    ⟨(10, 20), by simp, by norm_num, by norm_num⟩

/-- C3 (confirmed): the offset of segment i is the sum of the durations
of the ranges before it, and every emitted cue's times are the source
times minus the containing range's start plus that offset; for ranges
(0,10),(20,25),(30,40) the offsets are 0, 10 and 15. -/
theorem adjust_subtitle_offsets :
    (∀ (ranges : List (ℚ × ℚ)) (i : ℕ),
      seg_offset ranges i = ∑ k in Finset.range i, rangeDur (ranges.getD k (0, 0))) ∧
    (∀ (cues : List Cue) (ranges : List (ℚ × ℚ)) (o : OutCue),
      o ∈ adjust_subtitle cues ranges →
        ∃ i, ∃ hi : i < ranges.length,
          (ranges.get ⟨i, hi⟩).1 ≤ o.src.start ∧ o.src.stop ≤ (ranges.get ⟨i, hi⟩).2 ∧
          o.start = o.src.start - (ranges.get ⟨i, hi⟩).1 + seg_offset ranges i ∧
          o.stop = o.src.stop - (ranges.get ⟨i, hi⟩).1 + seg_offset ranges i) ∧
    (seg_offset [((0:ℚ), (10:ℚ)), ((20:ℚ), (25:ℚ)), ((30:ℚ), (40:ℚ))] 0 = 0 ∧
      seg_offset [((0:ℚ), (10:ℚ)), ((20:ℚ), (25:ℚ)), ((30:ℚ), (40:ℚ))] 1 = 10 ∧
      seg_offset [((0:ℚ), (10:ℚ)), ((20:ℚ), (25:ℚ)), ((30:ℚ), (40:ℚ))] 2 = 15) := by
  refine ⟨?_, ?_, ?_, ?_, ?_⟩
  · intro ranges i
    induction i with
    | zero => simp [seg_offset]
    | succ n ihn =>
      rw [Finset.sum_range_succ, ← ihn]
      unfold seg_offset
      rw [List.take_succ, List.map_append, List.sum_append]
      congr 1
      rw [List.getD_eq_getElem?_getD]
      cases h : ranges[n]? with
      | none => simp [rangeDur]
      | some r => simp
  · intro cues ranges o ho
    obtain ⟨i, hi, c, hc, hcont, rfl⟩ := (adjust_subtitle_mem cues ranges o).mp ho
    rw [containsB, Bool.and_eq_true, decide_eq_true_eq, decide_eq_true_eq] at hcont
    exact ⟨i, hi, hcont.1, hcont.2, rfl, rfl⟩
  · rfl
  · have h1 : seg_offset [((0:ℚ), (10:ℚ)), ((20:ℚ), (25:ℚ)), ((30:ℚ), (40:ℚ))] 1
        = (10 - 0) + 0 := rfl
    rw [h1]
    norm_num
  · have h2 : seg_offset [((0:ℚ), (10:ℚ)), ((20:ℚ), (25:ℚ)), ((30:ℚ), (40:ℚ))] 2
        = (10 - 0) + ((25 - 20) + 0) := rfl
    rw [h2]
    norm_num


/-- C3 witness: with ranges (10,20),(30,40) the cue spanning (15,18) is
emitted with times (5,8): contained in range 0 with offset 0. -/
theorem adjust_subtitle_offsets_witness :
    (⟨⟨15, 18, ["a"]⟩, 5, 8⟩ : OutCue) ∈
      adjust_subtitle [⟨15, 18, ["a"]⟩] [((10:ℚ), (20:ℚ)), ((30:ℚ), (40:ℚ))] ∧
    ∃ i, ∃ hi : i < ([((10:ℚ), (20:ℚ)), ((30:ℚ), (40:ℚ))] : List (ℚ × ℚ)).length,
      (([((10:ℚ), (20:ℚ)), ((30:ℚ), (40:ℚ))] : List (ℚ × ℚ)).get ⟨i, hi⟩).1 ≤ 15 ∧
      (18:ℚ) ≤ (([((10:ℚ), (20:ℚ)), ((30:ℚ), (40:ℚ))] : List (ℚ × ℚ)).get ⟨i, hi⟩).2 ∧
      (5:ℚ) = 15 - (([((10:ℚ), (20:ℚ)), ((30:ℚ), (40:ℚ))] : List (ℚ × ℚ)).get ⟨i, hi⟩).1 +
        seg_offset [((10:ℚ), (20:ℚ)), ((30:ℚ), (40:ℚ))] i ∧
      (8:ℚ) = 18 - (([((10:ℚ), (20:ℚ)), ((30:ℚ), (40:ℚ))] : List (ℚ × ℚ)).get ⟨i, hi⟩).1 +
        seg_offset [((10:ℚ), (20:ℚ)), ((30:ℚ), (40:ℚ))] i := by
  have hmem : (⟨⟨15, 18, ["a"]⟩, 5, 8⟩ : OutCue) ∈
      adjust_subtitle [⟨15, 18, ["a"]⟩] [((10:ℚ), (20:ℚ)), ((30:ℚ), (40:ℚ))] := by
    rw [adjust_subtitle_mem]
    refine ⟨0, by norm_num, ⟨15, 18, ["a"]⟩, by simp, ?_, ?_⟩
    · show containsB ((10:ℚ), (20:ℚ)) ⟨15, 18, ["a"]⟩ = true
      rw [containsB, Bool.and_eq_true, decide_eq_true_eq, decide_eq_true_eq]
      norm_num
    · show (⟨⟨15, 18, ["a"]⟩, 5, 8⟩ : OutCue) =
        shiftCue ((10:ℚ), (20:ℚ))
          (seg_offset [((10:ℚ), (20:ℚ)), ((30:ℚ), (40:ℚ))] 0) ⟨15, 18, ["a"]⟩
      rw [show seg_offset [((10:ℚ), (20:ℚ)), ((30:ℚ), (40:ℚ))] 0 = 0 from rfl]
      simp only [shiftCue, OutCue.mk.injEq]
      norm_num
  exact ⟨hmem, adjust_subtitle_offsets.2.1 _ _ _ hmem⟩

/-- Counting occurrences of a fixed cue through a conjunction with
another test. -/
theorem countP_eq_and (cues : List Cue) (c : Cue) (b : Cue → Bool) :
    cues.countP (fun a => decide (a = c) && b a) =
      if b c = true then cues.countP (fun x => decide (x = c)) else 0 := by
  induction cues with
  | nil => simp
  | cons y t ih =>
    rw [List.countP_cons, List.countP_cons, ih]
    by_cases hy : y = c
    · subst hy
      by_cases hb : b y = true
      · simp [hb]
      · simp [hb]
    · have hd : decide (y = c) = false := decide_eq_false hy
      by_cases hb : b c = true
      · simp [hd, hb]
      · simp [hd, hb]

/-- Emission count of a fixed cue in the retimer loop: once per
remaining range that contains it, times its multiplicity in the file. -/
theorem adjust_from_countP (cues : List Cue) (ranges : List (ℚ × ℚ)) (c : Cue) :
    ∀ (susp : List (ℚ × ℚ)) (i : ℕ),
      (adjust_from cues ranges i susp).countP (fun o => decide (o.src = c)) =
        susp.countP (fun r => containsB r c) * cues.countP (fun x => decide (x = c)) := by
  intro susp
  induction susp with
  | nil => intro i; simp [adjust_from]
  | cons r rest ih =>
    intro i
    rw [show adjust_from cues ranges i (r :: rest) =
        (cues.filter (containsB r)).map (shiftCue r (seg_offset ranges i))
          ++ adjust_from cues ranges (i + 1) rest from rfl]
    rw [List.countP_append, List.countP_map, ih (i + 1)]
    have hcomp : ((fun o => decide (o.src = c)) ∘ shiftCue r (seg_offset ranges i)) =
        fun x => decide (x = c) := rfl
    rw [hcomp, List.countP_filter, countP_eq_and, List.countP_cons]
    by_cases hb : containsB r c = true
    · rw [if_pos hb, if_pos hb]
      ring
    · rw [if_neg hb, if_neg hb]
      ring

/-- C6 (amended): a cue is emitted once per range that fully contains
it (times its multiplicity in the file), in range-scan order — not at
most once overall; when two ranges touch, a zero-length cue at the
shared boundary is contained in both and is emitted twice. -/
theorem adjust_emission_count (cues : List Cue) (ranges : List (ℚ × ℚ)) (c : Cue) :
    (adjust_subtitle cues ranges).countP (fun o => decide (o.src = c)) =
      ranges.countP (fun r => containsB r c) * cues.countP (fun x => decide (x = c)) :=
  adjust_from_countP cues ranges c ranges 0

/-- C6 counterexample: with touching ranges (0,10),(10,20) the
zero-length boundary cue (10,10) is emitted twice — the claim's
"exactly once" fails. -/
theorem adjust_emission_count_cex :
    adjust_subtitle [⟨10, 10, ["x"]⟩] [((0:ℚ), (10:ℚ)), ((10:ℚ), (20:ℚ))] =
      [⟨⟨10, 10, ["x"]⟩, 10, 10⟩, ⟨⟨10, 10, ["x"]⟩, 10, 10⟩] ∧
    (adjust_subtitle [⟨10, 10, ["x"]⟩] [((0:ℚ), (10:ℚ)), ((10:ℚ), (20:ℚ))]).length ≠ 1 := by
  have h : adjust_subtitle [⟨10, 10, ["x"]⟩] [((0:ℚ), (10:ℚ)), ((10:ℚ), (20:ℚ))] =
      [⟨⟨10, 10, ["x"]⟩, 10, 10⟩, ⟨⟨10, 10, ["x"]⟩, 10, 10⟩] := by
    show (([⟨10, 10, ["x"]⟩] : List Cue).filter (containsB ((0:ℚ), (10:ℚ)))).map
        (shiftCue ((0:ℚ), (10:ℚ)) (seg_offset [((0:ℚ), (10:ℚ)), ((10:ℚ), (20:ℚ))] 0))
      ++ ((([⟨10, 10, ["x"]⟩] : List Cue).filter (containsB ((10:ℚ), (20:ℚ)))).map
        (shiftCue ((10:ℚ), (20:ℚ)) (seg_offset [((0:ℚ), (10:ℚ)), ((10:ℚ), (20:ℚ))] 1))
      ++ []) = _
    have hc1 : containsB ((0:ℚ), (10:ℚ)) ⟨10, 10, ["x"]⟩ = true := by
      rw [containsB, Bool.and_eq_true, decide_eq_true_eq, decide_eq_true_eq]
      norm_num
    have hc2 : containsB ((10:ℚ), (20:ℚ)) ⟨10, 10, ["x"]⟩ = true := by
      rw [containsB, Bool.and_eq_true, decide_eq_true_eq, decide_eq_true_eq]
      norm_num
    rw [List.filter_singleton, List.filter_singleton, hc1, hc2]
    rw [show seg_offset [((0:ℚ), (10:ℚ)), ((10:ℚ), (20:ℚ))] 0 = 0 from rfl]
    rw [show seg_offset [((0:ℚ), (10:ℚ)), ((10:ℚ), (20:ℚ))] 1 = (10 - 0) + 0 from rfl]
    simp only [List.map_singleton, List.append_nil, List.cons_append,
      List.nil_append, List.cons.injEq]
    norm_num
    constructor
    · rw [shiftCue]
      simp only [OutCue.mk.injEq]
      norm_num
    · rw [shiftCue]
      simp only [OutCue.mk.injEq]
      norm_num
  exact ⟨h, by rw [h]; simp⟩

/-! Helper lemmas for the timestamp formatter. -/

/-- Digit-count bound for the raw decimal digits. -/
theorem decDigits_length_le :
    ∀ (fuel n k : ℕ), n ≤ fuel → n < 10 ^ k → (decDigits fuel n).length ≤ k := by
  intro fuel
  induction fuel with
  | zero =>
    intro n k hf _
    have hn : n = 0 := Nat.le_zero.mp hf
    subst hn
    simp [decDigits]
  | succ f ih =>
    intro n k hf hk
    by_cases h0 : n = 0
    · subst h0
      simp [decDigits]
    · rw [show decDigits (f + 1) n = decDigits f (n / 10) ++ [Char.ofNat (48 + n % 10)] from by
        rw [decDigits, if_neg h0]]
      rw [List.length_append]
      have hk0 : k ≠ 0 := by
        intro h
        rw [h] at hk
        omega
      obtain ⟨k', rfl⟩ : ∃ k', k = k' + 1 := ⟨k - 1, by omega⟩
      have h1 : n / 10 ≤ f := by
        have := Nat.div_lt_self (Nat.pos_of_ne_zero h0) (by norm_num : 1 < 10)
        omega
      have h2 : n / 10 < 10 ^ k' := by
        rw [Nat.div_lt_iff_lt_mul (by norm_num : 0 < 10)]
        calc n < 10 ^ (k' + 1) := hk
          _ = 10 ^ k' * 10 := by ring
      have h3 := ih (n / 10) k' h1 h2
      simp only [List.length_singleton]
      omega

/-- Width bound for the decimal rendering of a natural number. -/
theorem decimalStr_length_le (n k : ℕ) (hk : 1 ≤ k) (h : n < 10 ^ k) :
    (decimalStr n).length ≤ k := by
  unfold decimalStr
  by_cases h0 : n = 0
  · subst h0
    simpa using hk
  · rw [if_neg h0]
    exact decDigits_length_le (n + 1) n k (by omega) h

/-- Zero padding a string no wider than the target yields exactly the
target width. -/
theorem padZeros_length (w : ℕ) (s : String) (h : s.length ≤ w) :
    (padZeros w s).length = w := by
  unfold padZeros
  by_cases hlt : s.length < w
  · rw [if_pos hlt, String.length_append]
    show (List.replicate (w - s.length) '0').length + s.length = w
    rw [List.length_replicate]
    omega
  · rw [if_neg hlt]
    omega

/-- Zero padding never produces fewer than the target number of
characters. -/
theorem padZeros_length_ge (w : ℕ) (s : String) : w ≤ (padZeros w s).length := by
  unfold padZeros
  by_cases hlt : s.length < w
  · rw [if_pos hlt, String.length_append]
    show w ≤ (List.replicate (w - s.length) '0').length + s.length
    rw [List.length_replicate]
    omega
  · rw [if_neg hlt]
    omega

/-- The f-string padding of a non-negative integer is the padded decimal
rendering of its magnitude. -/
theorem intPad_of_nonneg (w : ℕ) (n : ℤ) (h : 0 ≤ n) :
    intPad w n = padZeros w (decimalStr n.toNat) := by
  unfold intPad
  rw [if_neg (not_lt.mpr h)]

/-- Python a % b is non-negative for positive b. -/
theorem pyMod_nonneg (a b : ℚ) (hb : 0 < b) : 0 ≤ pyMod a b := by
  unfold pyMod
  have h1 : (⌊a / b⌋ : ℚ) ≤ a / b := Int.floor_le _
  have h2 : b * (⌊a / b⌋ : ℚ) ≤ b * (a / b) := mul_le_mul_of_nonneg_left h1 hb.le
  have h3 : b * (a / b) = a := by field_simp
  linarith

/-- Python a % b is below b for positive b. -/
theorem pyMod_lt (a b : ℚ) (hb : 0 < b) : pyMod a b < b := by
  unfold pyMod
  have h1 : a / b < (⌊a / b⌋ : ℚ) + 1 := Int.lt_floor_add_one _
  have h2 : b * (a / b) < b * ((⌊a / b⌋ : ℚ) + 1) := (mul_lt_mul_left hb).mpr h1
  have h3 : b * (a / b) = a := by field_simp
  have h4 : b * ((⌊a / b⌋ : ℚ) + 1) = b * (⌊a / b⌋ : ℚ) + b := by ring
  linarith

/-- Floor of a quotient pinned by two-sided multiplicative bounds. -/
theorem floor_div_eq (A B : ℚ) (n : ℤ) (hB : 0 < B)
    (h1 : (n : ℚ) * B ≤ A) (h2 : A < ((n : ℚ) + 1) * B) : ⌊A / B⌋ = n := by
  rw [Int.floor_eq_iff]
  constructor
  · rw [le_div_iff₀ hB]
    exact h1
  · rw [div_lt_iff₀ hB]
    exact h2

/-- Round-half-even is the identity on integers. -/
theorem roundHalfEven_intCast (n : ℤ) : roundHalfEven (n : ℚ) = n := by
  unfold roundHalfEven
  rw [Int.floor_intCast]
  norm_num

/-- Round-half-even is the identity on natural numbers. -/
theorem roundHalfEven_natCast (n : ℕ) : roundHalfEven (n : ℚ) = (n : ℤ) := by
  have h := roundHalfEven_intCast (n : ℤ)
  rw [show (((n : ℤ) : ℚ)) = (n : ℚ) from by push_cast; rfl] at h
  exact h

/-- Round-half-even of a non-negative rational is non-negative. -/
theorem roundHalfEven_nonneg (q : ℚ) (h : 0 ≤ q) : 0 ≤ roundHalfEven q := by
  unfold roundHalfEven
  have h0 : 0 ≤ ⌊q⌋ := Int.floor_nonneg.mpr h
  split_ifs <;> omega

/-- C8 (confirmed): formatting the seconds value of a well-formed SRT
timestamp HH:MM:SS,mmm (two-digit fields with minutes and seconds below
60, three-digit milliseconds) reproduces the original rendering
exactly; with exact rational arithmetic no sub-millisecond rounding is
involved. -/
theorem srt_round_trip (h m s ms : ℕ) (_hh : h ≤ 99) (hm : m ≤ 59) (hs : s ≤ 59)
    (hms : ms ≤ 999) :
    sec_to_srt_time (srt_time_to_sec h m s ms) = srtRender h m s ms := by
  have hmQ : (m : ℚ) ≤ 59 := by exact_mod_cast hm
  have hsQ : (s : ℚ) ≤ 59 := by exact_mod_cast hs
  have hmsQ : (ms : ℚ) ≤ 999 := by exact_mod_cast hms
  have hms1 : (ms : ℚ) / 1000 < 1 := by
    rw [div_lt_one (by norm_num : (0:ℚ) < 1000)]
    linarith
  have hms0q : 0 ≤ (ms : ℚ) / 1000 := by positivity
  have hm0q : (0:ℚ) ≤ (m : ℚ) := Nat.cast_nonneg m
  have hs0q : (0:ℚ) ≤ (s : ℚ) := Nat.cast_nonneg s
  set q := srt_time_to_sec h m s ms with hq
  have hq0 : 0 ≤ q := by
    rw [hq]
    unfold srt_time_to_sec
    positivity
  have e_h : ⌊q / 3600⌋ = (h : ℤ) := by
    apply floor_div_eq _ _ _ (by norm_num : (0:ℚ) < 3600)
    · push_cast
      rw [hq]
      unfold srt_time_to_sec
      linarith
    · push_cast
      rw [hq]
      unfold srt_time_to_sec
      linarith
  have e_m : ⌊pyMod q 3600 / 60⌋ = (m : ℤ) := by
    have hmod : pyMod q 3600 = (m : ℚ) * 60 + (s : ℚ) + (ms : ℚ) / 1000 := by
      unfold pyMod
      rw [e_h]
      push_cast
      rw [hq]
      unfold srt_time_to_sec
      ring
    rw [hmod]
    apply floor_div_eq _ _ _ (by norm_num : (0:ℚ) < 60)
    · push_cast
      linarith
    · push_cast
      linarith
  have e60 : ⌊q / 60⌋ = (h : ℤ) * 60 + (m : ℤ) := by
    apply floor_div_eq _ _ _ (by norm_num : (0:ℚ) < 60)
    · push_cast
      rw [hq]
      unfold srt_time_to_sec
      linarith
    · push_cast
      rw [hq]
      unfold srt_time_to_sec
      linarith
  have e_s : ⌊pyMod q 60⌋ = (s : ℤ) := by
    have hmod : pyMod q 60 = (s : ℚ) + (ms : ℚ) / 1000 := by
      unfold pyMod
      rw [e60]
      push_cast
      rw [hq]
      unfold srt_time_to_sec
      ring
    rw [hmod, Int.floor_eq_iff]
    push_cast
    constructor
    · linarith
    · linarith
  have e_tr : pyTrunc q = (h : ℤ) * 3600 + (m : ℤ) * 60 + (s : ℤ) := by
    unfold pyTrunc
    rw [if_pos hq0, Int.floor_eq_iff]
    push_cast
    rw [hq]
    unfold srt_time_to_sec
    constructor
    · linarith
    · linarith
  have e_frac : (q - (pyTrunc q : ℚ)) * 1000 = (ms : ℚ) := by
    rw [e_tr]
    push_cast
    rw [hq]
    unfold srt_time_to_sec
    ring
  have e_ms : roundHalfEven ((q - (pyTrunc q : ℚ)) * 1000) = (ms : ℤ) := by
    rw [e_frac, roundHalfEven_natCast]
  unfold sec_to_srt_time srt_h srt_m srt_s srt_ms
  rw [e_h, e_m, e_s, e_ms]
  rw [intPad_of_nonneg 2 (h : ℤ) (Int.natCast_nonneg h),
    intPad_of_nonneg 2 (m : ℤ) (Int.natCast_nonneg m),
    intPad_of_nonneg 2 (s : ℤ) (Int.natCast_nonneg s),
    intPad_of_nonneg 3 (ms : ℤ) (Int.natCast_nonneg ms)]
  rw [Int.toNat_natCast, Int.toNat_natCast, Int.toNat_natCast, Int.toNat_natCast]
  rfl

/-- C8 witness: the timestamp 01:02:03,045 survives the parse-format
round trip. -/
theorem srt_round_trip_witness :
    sec_to_srt_time (srt_time_to_sec 1 2 3 45) = "01:02:03,045" := by
  have h := srt_round_trip 1 2 3 45 (by norm_num) (by norm_num) (by norm_num) (by norm_num)
  rw [h]
  decide

/-- C7 (amended): for every non-negative seconds value whose rounded
millisecond field is at most 999, the formatter produces
HH:MM:SS,mmm with a comma separator, exactly 3 millisecond digits,
exactly 2-digit zero-padded minute and second fields, an hour field of
at least 2 zero-padded digits, and an hour value that is the full
floor of sec/3600 — no modulo-24 wrap.  (When the fractional part
rounds to 1000, the millisecond field has 4 digits; see the
counterexample.) -/
theorem sec_to_srt_time_form (sec : ℚ) (h0 : 0 ≤ sec) (hcap : srt_ms sec ≤ 999) :
    sec_to_srt_time sec =
      padZeros 2 (decimalStr (srt_h sec).toNat) ++ ":" ++
      padZeros 2 (decimalStr (srt_m sec).toNat) ++ ":" ++
      padZeros 2 (decimalStr (srt_s sec).toNat) ++ "," ++
      padZeros 3 (decimalStr (srt_ms sec).toNat) ∧
    srt_h sec = ⌊sec / 3600⌋ ∧
    (srt_m sec).toNat ≤ 59 ∧ (srt_s sec).toNat ≤ 59 ∧ (srt_ms sec).toNat ≤ 999 ∧
    (padZeros 2 (decimalStr (srt_m sec).toNat)).length = 2 ∧
    (padZeros 2 (decimalStr (srt_s sec).toNat)).length = 2 ∧
    (padZeros 3 (decimalStr (srt_ms sec).toNat)).length = 3 ∧
    2 ≤ (padZeros 2 (decimalStr (srt_h sec).toNat)).length := by
  have hh0 : 0 ≤ srt_h sec := Int.floor_nonneg.mpr (by positivity)
  have hm0 : 0 ≤ srt_m sec :=
    Int.floor_nonneg.mpr (div_nonneg (pyMod_nonneg sec 3600 (by norm_num)) (by norm_num))
  have hmlt : srt_m sec < 60 := by
    unfold srt_m
    rw [Int.floor_lt]
    push_cast
    rw [div_lt_iff₀ (by norm_num : (0:ℚ) < 60)]
    calc pyMod sec 3600 < 3600 := pyMod_lt sec 3600 (by norm_num)
      _ = 60 * 60 := by norm_num
  have hsA : 0 ≤ srt_s sec := Int.floor_nonneg.mpr (pyMod_nonneg sec 60 (by norm_num))
  have hslt : srt_s sec < 60 := by
    unfold srt_s
    rw [Int.floor_lt]
    push_cast
    exact pyMod_lt sec 60 (by norm_num)
  have hfrac0 : 0 ≤ (sec - (pyTrunc sec : ℚ)) * 1000 := by
    apply mul_nonneg _ (by norm_num)
    unfold pyTrunc
    rw [if_pos h0]
    linarith [Int.floor_le sec]
  have hms0 : 0 ≤ srt_ms sec := roundHalfEven_nonneg _ hfrac0
  have hpow : (10:ℕ) ^ 2 = 100 := by norm_num
  have hpow3 : (10:ℕ) ^ 3 = 1000 := by norm_num
  refine ⟨?_, rfl, by omega, by omega, by omega, ?_, ?_, ?_, ?_⟩
  · unfold sec_to_srt_time
    rw [intPad_of_nonneg 2 (srt_h sec) hh0, intPad_of_nonneg 2 (srt_m sec) hm0,
      intPad_of_nonneg 2 (srt_s sec) hsA, intPad_of_nonneg 3 (srt_ms sec) hms0]
  · exact padZeros_length 2 _ (decimalStr_length_le _ 2 (by norm_num) (by omega))
  · exact padZeros_length 2 _ (decimalStr_length_le _ 2 (by norm_num) (by omega))
  · exact padZeros_length 3 _ (decimalStr_length_le _ 3 (by norm_num) (by omega))
  · exact padZeros_length_ge 2 _

/-- C7 witness: at sec = 5 the hypotheses hold (the millisecond field
is 0) and the formatter output has the canonical shape with a 3-digit
millisecond field. -/
theorem sec_to_srt_time_form_witness :
    (0:ℚ) ≤ 5 ∧ srt_ms 5 ≤ 999 ∧
    sec_to_srt_time 5 =
      padZeros 2 (decimalStr (srt_h 5).toNat) ++ ":" ++
      padZeros 2 (decimalStr (srt_m 5).toNat) ++ ":" ++
      padZeros 2 (decimalStr (srt_s 5).toNat) ++ "," ++
      padZeros 3 (decimalStr (srt_ms 5).toNat) ∧
    (padZeros 3 (decimalStr (srt_ms 5).toNat)).length = 3 := by
  have h5 : srt_ms (5:ℚ) = 0 := by
    unfold srt_ms pyTrunc
    rw [if_pos (by norm_num : (0:ℚ) ≤ 5)]
    have hf : ⌊(5:ℚ)⌋ = 5 := by norm_num
    rw [hf]
    have h00 : ((5:ℚ) - ((5:ℤ):ℚ)) * 1000 = ((0:ℤ):ℚ) := by push_cast; ring
    rw [h00, roundHalfEven_intCast]
  have hcap : srt_ms (5:ℚ) ≤ 999 := by rw [h5]; norm_num
  have h := sec_to_srt_time_form 5 (by norm_num) hcap
  exact ⟨by norm_num, hcap, h.1, h.2.2.2.2.2.2.2.1⟩

/-- C7 counterexample: at sec = 0.9999 the fractional part rounds to
1000 milliseconds and the output is 00:00:00,1000 — 13 characters, not
the 12 of a two-digit-hour HH:MM:SS,mmm rendering, so the millisecond
field does not have exactly 3 digits. -/
theorem sec_to_srt_time_form_cex :
    sec_to_srt_time (9999/10000) = "00:00:00,1000" ∧
    (sec_to_srt_time (9999/10000)).length ≠ 12 := by
  have h1 : srt_h (9999/10000 : ℚ) = 0 := by
    unfold srt_h
    norm_num
  have h2 : srt_m (9999/10000 : ℚ) = 0 := by
    unfold srt_m pyMod
    norm_num
  have h3 : srt_s (9999/10000 : ℚ) = 0 := by
    unfold srt_s pyMod
    norm_num
  have h4 : srt_ms (9999/10000 : ℚ) = 1000 := by
    unfold srt_ms pyTrunc
    rw [if_pos (by norm_num : (0:ℚ) ≤ 9999/10000)]
    have hf : ⌊(9999/10000:ℚ)⌋ = 0 := by norm_num
    rw [hf]
    have he : ((9999/10000:ℚ) - ((0:ℤ):ℚ)) * 1000 = 9999/10 := by push_cast; ring
    rw [he]
    unfold roundHalfEven
    have hg : ⌊(9999/10:ℚ)⌋ = 999 := by norm_num
    rw [hg]
    norm_num
  have hmain : sec_to_srt_time (9999/10000) = "00:00:00,1000" := by
    unfold sec_to_srt_time
    rw [h1, h2, h3, h4]
    decide
  exact ⟨hmain, by rw [hmain]; decide⟩
